import Mathlib

/-!
Verification development for `scrape_deals.py` (grocery-deals).

The pipeline is shallowly embedded: Python strings become Lean `String`s
(operated on through their underlying `List Char`), the parsed HTML
document becomes an inductive tree `Node`, and the regular expressions of
the source are hand-compiled into executable matchers with the same
leftmost-match semantics.  External collaborators (the network fetcher,
`hashlib.sha1`, `urllib.parse.urljoin`, `datetime.date.today`) are modelled
by deterministic stand-ins documented at their definitions; no claim below
depends on more than the properties stated there.
-/

/-! ### Character/string utilities -/

/-- Boolean test: `p` is a prefix of `l` (used to model `str.startswith`
and substring search). -/
def startsWithB : List Char → List Char → Bool
  | [], _ => true
  | _ :: _, [] => false
  | a :: p, b :: l => a == b && startsWithB p l

/-- Boolean test: `p` occurs as a contiguous sublist of `l`. -/
def isSubB (p : List Char) : List Char → Bool
  | [] => startsWithB p []
  | b :: l => startsWithB p (b :: l) || isSubB p l

/-- Drop leading and trailing whitespace (model of Python `str.strip()`). -/
def trimChars (l : List Char) : List Char :=
  ((l.dropWhile Char.isWhitespace).reverse.dropWhile Char.isWhitespace).reverse

/-- Model of Python `str.strip()` on strings. -/
def strip (s : String) : String := String.mk (trimChars s.data)

/-- Collapse every maximal run of whitespace to one space
(the `re.sub(r"\s+", " ", s)` part of `textnorm`). -/
def collapseWS : List Char → List Char
  | [] => []
  | [c] => if c.isWhitespace then [' '] else [c]
  | a :: b :: r =>
    if a.isWhitespace && b.isWhitespace then collapseWS (b :: r)
    else (if a.isWhitespace then ' ' else a) :: collapseWS (b :: r)

/-- `textnorm` from the source: collapse whitespace runs to a single
space, then strip. -/
def textnorm (s : String) : String := String.mk (trimChars (collapseWS s.data))

/-- Split a character list at every occurrence of `c`
(model of `str.splitlines` for newline-separated text). -/
def splitOnChar (c : Char) : List Char → List (List Char)
  | [] => [[]]
  | a :: r =>
    match splitOnChar c r with
    | h :: t => if a == c then [] :: h :: t else (a :: h) :: t
    | [] => if a == c then [[], []] else [[a]]

/-- String-level splitting on one character. -/
def splitOnCharS (c : Char) (s : String) : List String :=
  (splitOnChar c s.data).map String.mk

/-- Model of `sep.join(parts)`. -/
def joinWith (sep : String) : List String → String
  | [] => ""
  | [s] => s
  | s :: r => s ++ sep ++ joinWith sep r

/-- Python slicing `s[:n]` on strings (by characters). -/
def takeStr (s : String) (n : Nat) : String := String.mk (s.data.take n)

/-- Lower-case a string character-wise (for `re.IGNORECASE` modelling). -/
def lowerStr (s : String) : String := String.mk (s.data.map Char.toLower)

/-- Split a character list at whitespace (empty chunks included). -/
def splitWS : List Char → List (List Char)
  | [] => [[]]
  | a :: r =>
    match splitWS r with
    | h :: t => if a.isWhitespace then [] :: h :: t else (a :: h) :: t
    | [] => if a.isWhitespace then [[], []] else [[a]]

/-! ### Hand-compiled regular-expression matchers

Each `...At` function attempts to match the corresponding regex fragment
at the head of its input.  Matchers that return
`Option (List Char × List Char)` return the consumed characters and the
rest, with the invariant `input = consumed ++ rest`.

Greedy quantifiers are simulated without backtracking; this is exact for
the patterns of the source because in each of them the character class of
a quantified piece is disjoint from the first character of what follows
(digits vs. `f`/`$`/whitespace, whitespace vs. digits, etc.), so a
backtracking engine can never succeed by giving characters back. -/

/-- Match a literal word case-insensitively (`re.IGNORECASE`), returning
the characters actually consumed verbatim. -/
def strCIAt (pat : List Char) (l : List Char) : Option (List Char × List Char) :=
  match pat, l with
  | [], l => some ([], l)
  | _ :: _, [] => none
  | p :: ps, c :: cs =>
    if c.toLower == p.toLower then
      match strCIAt ps cs with
      | some (m, r) => some (c :: m, r)
      | none => none
    else none

/-- Consume one whitespace character if present (`\s?`). -/
def optWSAt (l : List Char) : List Char × List Char :=
  match l with
  | [] => ([], [])
  | c :: r => if c.isWhitespace then ([c], r) else ([], c :: r)

/-- Consume `(?:\.\d{1,2})?`: a dot followed by one or two digits, or
nothing. -/
def optFracAt (l : List Char) : List Char × List Char :=
  match l with
  | [] => ([], [])
  | c :: r =>
    if c = '.' then
      let ds := (r.takeWhile Char.isDigit).take 2
      if ds.isEmpty then ([], c :: r) else (c :: ds, r.drop ds.length)
    else ([], c :: r)

/-- Alternative 1 of the unit regex in `guess_price_unit`:
`/(?:lb|kg|ea)` (case-insensitive). -/
def unitSlashAt (l : List Char) : Option (List Char × List Char) :=
  match l with
  | [] => none
  | c :: r =>
    if c = '/' then
      match strCIAt ['l', 'b'] r with
      | some (m, rest) => some (c :: m, rest)
      | none =>
        match strCIAt ['k', 'g'] r with
        | some (m, rest) => some (c :: m, rest)
        | none =>
          match strCIAt ['e', 'a'] r with
          | some (m, rest) => some (c :: m, rest)
          | none => none
    else none

/-- The multi-buy pattern `\d+\s?for\s?\$\s?\d+(?:\.\d{1,2})?`
(case-insensitive), shared by the unit regex and the price/promo regex. -/
def multiBuyAt (l : List Char) : Option (List Char × List Char) :=
  let ds := l.takeWhile Char.isDigit
  if ds.isEmpty then none
  else
    let r1 := l.dropWhile Char.isDigit
    let (w1, r2) := optWSAt r1
    match strCIAt ['f', 'o', 'r'] r2 with
    | none => none
    | some (mfor, r3) =>
      let (w2, r4) := optWSAt r3
      match r4 with
      | [] => none
      | c4 :: r5 =>
        if c4 = '$' then
          let (w3, r6) := optWSAt r5
          let ds2 := r6.takeWhile Char.isDigit
          if ds2.isEmpty then none
          else
            let r7 := r6.dropWhile Char.isDigit
            let (frac, r8) := optFracAt r7
            some (ds ++ w1 ++ mfor ++ w2 ++ c4 :: (w3 ++ ds2 ++ frac), r8)
        else none

/-- The unit regex of `guess_price_unit`, attempted at one position:
`(/(?:lb|kg|ea))|(\d+\s?for\s?\$\s?\d+(?:\.\d{1,2})?)|(each)` with
`re.IGNORECASE`.  The three alternatives begin with pairwise disjoint
character classes (`/`, a digit, `e`/`E`), so Python's
first-alternative-wins order coincides with this one. -/
def unitMatchAt (l : List Char) : Option (List Char × List Char) :=
  match unitSlashAt l with
  | some x => some x
  | none =>
    match multiBuyAt l with
    | some x => some x
    | none => strCIAt ['e', 'a', 'c', 'h'] l

/-- The numeric part `\d{1,3}(?:\.\d{1,2})?` of the price regex,
returning capture group 1 of `\$\s?(\d{1,3}(?:\.\d{1,2})?)`. -/
def priceNumAt (l : List Char) : Option (List Char) :=
  let ds := (l.takeWhile Char.isDigit).take 3
  if ds.isEmpty then none
  else
    let (frac, _) := optFracAt (l.drop ds.length)
    some (ds ++ frac)

/-- The price regex of `guess_price_unit`, attempted at one position:
`\$\s?(\d{1,3}(?:\.\d{1,2})?)`, returning the captured numeric portion.
After `\$\s?`, trying with and without the optional whitespace coincide
because a whitespace character is never a digit. -/
def priceMatchAt : List Char → Option (List Char)
  | [] => none
  | d :: r =>
    if d = '$' then
      match r with
      | [] => none
      | c :: t => if c.isWhitespace then priceNumAt t else priceNumAt (c :: t)
    else none

/-- Whole-match version of the dollar-amount pattern
`\$\s?\d{1,3}(?:\.\d{1,2})?` (first alternative of the price/promo regex
used by the card extractor and the fallback block extractor). -/
def dollarAt : List Char → Option (List Char)
  | [] => none
  | d :: r =>
    if d = '$' then
      match r with
      | [] => none
      | c :: t =>
        if c.isWhitespace then
          match priceNumAt t with
          | some g => some (d :: c :: g)
          | none => none
        else
          match priceNumAt (c :: t) with
          | some g => some (d :: g)
          | none => none
    else none

/-- The `buy\s?\d+\s?get\s?\d+` alternative (case-insensitive). -/
def buyGetAt (l : List Char) : Option (List Char) :=
  match strCIAt ['b', 'u', 'y'] l with
  | none => none
  | some (mbuy, r1) =>
    let (w1, r2) := optWSAt r1
    let ds := r2.takeWhile Char.isDigit
    if ds.isEmpty then none
    else
      let r3 := r2.dropWhile Char.isDigit
      let (w2, r4) := optWSAt r3
      match strCIAt ['g', 'e', 't'] r4 with
      | none => none
      | some (mget, r5) =>
        let (w3, r6) := optWSAt r5
        let ds2 := r6.takeWhile Char.isDigit
        if ds2.isEmpty then none
        else some (mbuy ++ w1 ++ ds ++ w2 ++ mget ++ w3 ++ ds2)

/-- The price/promo regex (lines 61 and 112 of the source), attempted at
one position:
`\$\s?\d{1,3}(?:\.\d{1,2})?|(\d+\s?for\s?\$\s?\d+(?:\.\d{1,2})?)|buy\s?\d+\s?get\s?\d+`
with `re.IGNORECASE`.  The alternatives begin with `$`, a digit and
`b`/`B` respectively, hence are disjoint at any one position. -/
def pricePromoAt (l : List Char) : Option (List Char) :=
  match dollarAt l with
  | some x => some x
  | none =>
    match multiBuyAt l with
    | some (m, _) => some m
    | none => buyGetAt l

/-- Leftmost-match driver for matchers returning only the matched text:
model of `re.search`, which succeeds at the first position where the
pattern matches (the empty suffix included). -/
def scanFirstG (f : List Char → Option (List Char)) : List Char → Option (List Char)
  | [] => f []
  | c :: r =>
    match f (c :: r) with
    | some g => some g
    | none => scanFirstG f r

/-- Leftmost-match driver for matchers returning `(consumed, rest)`. -/
def scanFirstM (f : List Char → Option (List Char × List Char)) :
    List Char → Option (List Char)
  | [] => (f []).map Prod.fst
  | c :: r =>
    match f (c :: r) with
    | some (m, _) => some m
    | none => scanFirstM f r

/-- `price_rx.search(txt)` succeeded (price/promo pattern occurs in
`txt`): used by card-extractor strategy 2 and the fallback block
extractor. -/
def pricePromoFound (s : String) : Bool :=
  (scanFirstG pricePromoAt s.data).isSome

/-- `guess_price_unit` from the source: the first dollar-amount match
(numeric capture only) and the first unit match (verbatim), each the
empty string when its regex finds nothing. -/
def guess_price_unit (s : String) : String × String :=
  let price :=
    match scanFirstG priceMatchAt s.data with
    | some g => String.mk g
    | none => ""
  let unit :=
    match scanFirstM unitMatchAt s.data with
    | some m => String.mk m
    | none => ""
  (price, unit)

/-! ### Document model

`Node` models the parsed HTML tree delivered by the external HTML parser
(BeautifulSoup): element nodes with a (lower-case) tag, an attribute
list, and children, or text nodes.  A document is the list of top-level
nodes.  `select`-style lookups are modelled as predicate searches over
the pre-order (document-order) element list, which is how soupsieve
reports matches. -/

inductive Node where
  | elem (tag : String) (attrs : List (String × String)) (children : List Node)
  | text (s : String)

mutual

/-- All text pieces (NavigableStrings) of a node, in document order. -/
def textPieces : Node → List String
  | .text s => [s]
  | .elem _ _ cs => textPiecesList cs
termination_by structural n => n

/-- All text pieces of a node list, in document order. -/
def textPiecesList : List Node → List String
  | [] => []
  | n :: ns => textPieces n ++ textPiecesList ns
termination_by structural l => l

end

mutual

/-- All element nodes of a subtree, in pre-order, the root included. -/
def elemsOf : Node → List Node
  | .text _ => []
  | .elem t a cs => .elem t a cs :: elemsList cs
termination_by structural n => n

/-- All element nodes of a node list, in pre-order. -/
def elemsList : List Node → List Node
  | [] => []
  | n :: ns => elemsOf n ++ elemsList ns
termination_by structural l => l

end

/-- The strict descendants of a node that are elements (what
`tag.select_one(...)` searches). -/
def descElems : Node → List Node
  | .text _ => []
  | .elem _ _ cs => elemsList cs

mutual

/-- Remove every element whose tag is in `bad`, with its whole subtree
(model of `tag.extract()` for `soup(["script","style","noscript"])`). -/
def pruneNode (bad : List String) : Node → List Node
  | .text s => [.text s]
  | .elem t a cs => if t ∈ bad then [] else [.elem t a (pruneList bad cs)]
termination_by structural n => n

/-- `pruneNode` over a node list. -/
def pruneList (bad : List String) : List Node → List Node
  | [] => []
  | n :: ns => pruneNode bad n ++ pruneList bad ns
termination_by structural l => l

end

/-- Attribute lookup with `""` for an absent attribute.  BeautifulSoup's
`tag.get(k)` returns `None` when absent; every use in the source treats
`None` and `""` identically (both are falsy and flow into `absolutize`
or `textnorm`), so the model merges them. -/
def attrD (n : Node) (k : String) : String :=
  match n with
  | .elem _ attrs _ => (((attrs.find? (fun p => p.1 == k)).map Prod.snd).getD "")
  | .text _ => ""

/-- Attribute presence (CSS `[k]`). -/
def hasAttr (n : Node) (k : String) : Bool :=
  match n with
  | .elem _ attrs _ => attrs.any (fun p => p.1 == k)
  | .text _ => false

/-- The tag of an element (`""` for text). -/
def tagOf : Node → String
  | .elem t _ _ => t
  | .text _ => ""

/-- CSS `[k*="sub"]`: attribute present and value containing `sub`
(attribute-value matching in soupsieve is case-sensitive). -/
def attrContains (n : Node) (k sub : String) : Bool :=
  hasAttr n k && isSubB sub.data (attrD n k).data

/-- CSS class selector `.w`: `w` occurs as a whitespace-separated token
of the `class` attribute. -/
def classWord (n : Node) (w : String) : Bool :=
  (splitWS (attrD n "class").data).any (fun t => t == w.data)

/-- `tag.get_text(sep)`: all text pieces joined with `sep`. -/
def getTextSep (sep : String) (n : Node) : String := joinWith sep (textPieces n)

/-- `tag.get_text()` (empty separator). -/
def getTextAll (n : Node) : String := joinWith "" (textPieces n)

/-- `soup.get_text(sep)` over a whole document. -/
def getTextSepDoc (sep : String) (doc : List Node) : String :=
  joinWith sep (textPiecesList doc)

/-- `soup.get_text(sep, strip=True)`: each text piece stripped, empty
pieces dropped, the rest joined with `sep`. -/
def getTextStripDoc (sep : String) (doc : List Node) : String :=
  joinWith sep (((textPiecesList doc).map strip).filter (fun s => s ≠ ""))

/-! ### Card extractor (`find_product_cards`) -/

/-- A candidate product card (the dicts built by `find_product_cards`). -/
structure Card where
  title : String
  price : String
  img : String
  href : String
  raw : String
deriving Repr, DecidableEq

/-- Selector `[itemscope][itemtype*="Product"], [itemtype*="schema.org/Product"]`. -/
def isProductScope (n : Node) : Bool :=
  (hasAttr n "itemscope" && attrContains n "itemtype" "Product")
    || attrContains n "itemtype" "schema.org/Product"

/-- Selector `[itemprop="name"]`. -/
def isNameProp (n : Node) : Bool := attrD n "itemprop" == "name"

/-- Selector `[itemprop="price"], [data-test*="price"], .price, .Price, [class*="price"]`
(price lookup of strategy 1). -/
def isPriceSel1 (n : Node) : Bool :=
  attrD n "itemprop" == "price" || attrContains n "data-test" "price"
    || classWord n "price" || classWord n "Price" || attrContains n "class" "price"

/-- Selector `h1, h2, h3, h4, [class*='title'], [data-test*='title'], [itemprop='name']`
(title lookup of strategy 2). -/
def isTitleSel2 (n : Node) : Bool :=
  tagOf n == "h1" || tagOf n == "h2" || tagOf n == "h3" || tagOf n == "h4"
    || attrContains n "class" "title" || attrContains n "data-test" "title"
    || attrD n "itemprop" == "name"

/-- Selector `[class*='price'], [data-test*='price'], [itemprop='price']`
(price refinement of strategy 2). -/
def isPriceSel2 (n : Node) : Bool :=
  attrContains n "class" "price" || attrContains n "data-test" "price"
    || attrD n "itemprop" == "price"

/-- Selector `img`. -/
def isImg (n : Node) : Bool := tagOf n == "img"

/-- Selector `a[href]`. -/
def isLink (n : Node) : Bool := tagOf n == "a" && hasAttr n "href"

/-- Strategy 1 card construction for one schema.org Product element. -/
def cardFromProd (prod : Node) : Card :=
  let title := (descElems prod).find? isNameProp
  let price := (descElems prod).find? isPriceSel1
  let img := (descElems prod).find? isImg
  let link := (descElems prod).find? isLink
  { title := textnorm (match title with | some t => getTextAll t | none => "")
    price := textnorm (match price with | some p => getTextAll p | none => "")
    img := match img with | some i => attrD i "src" | none => ""
    href := match link with | some l => attrD l "href" | none => ""
    raw := textnorm (getTextSep " " prod) }

/-- Strategy 2: a container (`div, li, article, section`) qualifies only
if its flattened text matches the price/promo regex and it has an image
or a title-hinted descendant; the two `continue`s of the loop become
`none`. -/
def cardFromContainer (c : Node) : Option Card :=
  let txt := textnorm (getTextSep " " c)
  if !pricePromoFound txt then none
  else
    let img := (descElems c).find? isImg
    let title := (descElems c).find? isTitleSel2
    if img.isNone && title.isNone then none
    else
      let link := (descElems c).find? isLink
      let price := (descElems c).find? isPriceSel2
      some
        { title := textnorm (match title with | some t => getTextAll t | none => "")
          price := textnorm (match price with | some p => getTextAll p | none => "")
          img := match img with | some i => attrD i "src" | none => ""
          href := match link with | some l => attrD l "href" | none => ""
          raw := txt }

/-- `find_product_cards` from the source: schema.org products, else
generic containers, else one OpenGraph poster card, else nothing. -/
def find_product_cards (doc : List Node) : List Card :=
  let s1 := ((elemsList doc).filter isProductScope).map cardFromProd
  if s1 ≠ [] then s1
  else
    let s2 :=
      ((elemsList doc).filter
          (fun n => tagOf n == "div" || tagOf n == "li" || tagOf n == "article"
            || tagOf n == "section")).filterMap cardFromContainer
    if s2 ≠ [] then s2
    else
      let ogTitle :=
        (elemsList doc).find? (fun n => tagOf n == "meta" && attrD n "property" == "og:title")
      let ogImg :=
        (elemsList doc).find? (fun n => tagOf n == "meta" && attrD n "property" == "og:image")
      if ogTitle.isSome || ogImg.isSome then
        [{ title := textnorm (match ogTitle with | some t => attrD t "content" | none => "")
           price := ""
           img := match ogImg with | some i => attrD i "content" | none => ""
           href := ""
           raw := textnorm (getTextSepDoc " " doc) }]
      else []

/-! ### Keyword matcher (`match_cards_by_keywords`) -/

/-- Model of `re.search(kw, blob, flags=re.I)` for the keyword patterns,
which contain no regex metacharacters: case-insensitive substring
containment. -/
def re_search_ci (pat blob : String) : Bool :=
  isSubB (lowerStr pat).data (lowerStr blob).data

/-- The search blob of a card: `" ".join([title, price, raw])`. -/
def searchBlob (c : Card) : String := c.title ++ " " ++ c.price ++ " " ++ c.raw

/-- The inner `for kw in keywords: ... break` loop: the first keyword in
caller order whose search succeeds. -/
def firstHit (kws : List String) (blob : String) : Option String :=
  match kws with
  | [] => none
  | kw :: rest => if re_search_ci kw blob then some kw else firstHit rest blob

/-- A `Match`: the card together with the keyword that selected it
(`{**card, "hit": kw}`). -/
structure DealMatch where
  card : Card
  hit : String
deriving Repr, DecidableEq

/-- `match_cards_by_keywords` from the source. -/
def match_cards_by_keywords (cards : List Card) (kws : List String) : List DealMatch :=
  match cards with
  | [] => []
  | c :: rest =>
    match firstHit kws (searchBlob c) with
    | some kw => ⟨c, kw⟩ :: match_cards_by_keywords rest kws
    | none => match_cards_by_keywords rest kws

/-! ### Fallback block extractor (`extract_blocks_for_fallback`) -/

/-- The per-line loop of `extract_blocks_for_fallback`: strip the line,
drop it when empty, drop it when shorter than 100 characters and not
matching the price/promo regex, otherwise keep its normalized form. -/
def keepBlocks : List String → List String
  | [] => []
  | line :: rest =>
    let l := strip line
    if l = "" then keepBlocks rest
    else if l.length < 100 && !pricePromoFound l then keepBlocks rest
    else textnorm l :: keepBlocks rest

/-- The flattened lines of a document after removing
`script`/`style`/`noscript`: `soup.get_text("\n", strip=True)` followed
by `splitlines()` (text pieces are assumed to use `\n` as their only
line separator). -/
def fallbackLines (doc : List Node) : List String :=
  splitOnCharS '\n' (getTextStripDoc "\n" (pruneList ["script", "style", "noscript"] doc))

/-- `extract_blocks_for_fallback` from the source. -/
def extract_blocks_for_fallback (doc : List Node) : List String :=
  keepBlocks (fallbackLines doc)

/-! ### Record builder & deduplicator (`rows_from_matches`,
`rows_from_fallback_blocks`) and orchestrator (`main`) -/

/-- A Deal Record (one CSV row of the `SCHEMA` fields). -/
structure Row where
  date : String
  store : String
  product : String
  price : String
  unit : String
  promo_text : String
  valid_from : String
  valid_to : String
  url : String
  id : String
  image_url : String
  product_url : String
deriving Repr, DecidableEq

/-- Model of `hashlib.sha1(s.encode()).hexdigest()`: an external,
deterministic function of its input.  The stand-in is injective, which
is the contract the design notes state for the content hash
("determinism and collision-avoidance"); no theorem below relies on
more than determinism, and equal inputs give equal outputs exactly as
for the real digest. -/
def sha1 (s : String) : String := "sha1#" ++ s

/-- Model of `datetime.date.today().isoformat()`, captured once at
module load (`TODAY`); its value is irrelevant to every claim. -/
def TODAY : String := "2026-10-12"

/-- Model of `urllib.parse.urljoin` (external library): an absolute
`http(s)` URL is returned unchanged; other non-empty URLs are resolved
against the base, modelled coarsely as concatenation.  No claim below
exercises relative URLs. -/
def urljoin (base url : String) : String :=
  if startsWithB "http://".data url.data || startsWithB "https://".data url.data then url
  else base ++ url

/-- `absolutize` from the source: empty (or `None`) stays empty,
otherwise `urljoin`. -/
def absolutize (base url : String) : String :=
  if url = "" then "" else urljoin base url

/-- The body of the `for m in matches` loop of `rows_from_matches`:
build one Deal Record from one Match.  Python string truthiness
(`x or y`) becomes emptiness tests. -/
def buildRow (store_name base_url : String) (m : DealMatch) : Row :=
  let title := if m.card.title ≠ "" then m.card.title else takeStr m.card.raw 120
  let price := m.card.price
  let product_url := absolutize base_url m.card.href
  let image_url := absolutize base_url m.card.img
  let rid :=
    sha1 (joinWith "|"
      [store_name, title, price, if product_url ≠ "" then product_url else base_url])
  { date := TODAY
    store := store_name
    product := if title ≠ "" then title else m.hit
    price := price
    unit := ""
    promo_text := textnorm m.card.raw
    valid_from := ""
    valid_to := ""
    url := if product_url ≠ "" then product_url else base_url
    id := rid
    image_url := image_url
    product_url := product_url }

/-- The dedup loop of `rows_from_matches` (lines 154-159): `seen` is the
set of ids already emitted, modelled as a list queried by membership. -/
def dedupGo (seen : List String) : List Row → List Row
  | [] => []
  | r :: rest =>
    if r.id ∈ seen then dedupGo seen rest
    else r :: dedupGo (r.id :: seen) rest

/-- Deduplicate by `id`, keeping the first occurrence, preserving
order. -/
def dedupById (rows : List Row) : List Row := dedupGo [] rows

/-- `rows_from_matches` from the source: build a row per match, then
dedup by `id`. -/
def rows_from_matches (store_name base_url : String) (ms : List DealMatch) : List Row :=
  dedupById (ms.map (buildRow store_name base_url))

/-- `rows_from_fallback_blocks` from the source: for each retained
block, the first matching keyword (skip the block when none), price and
unit from `guess_price_unit`, and no dedup. -/
def rows_from_fallback_blocks (store_name base_url : String)
    (kws blocks : List String) : List Row :=
  blocks.filterMap fun b =>
    match firstHit kws b with
    | none => none
    | some hit =>
      let pu := guess_price_unit b
      some
        { date := TODAY
          store := store_name
          product := hit
          price := pu.1
          unit := pu.2
          promo_text := b
          valid_from := ""
          valid_to := ""
          url := base_url
          id := sha1 (joinWith "|" [store_name, hit, b, base_url])
          image_url := ""
          product_url := "" }

/-- The per-URL `try` body of `main`: extract cards, match keywords, and
build rows from the matches when there are any, else from the fallback
blocks (line 259 tests `if matches:`). -/
def pageRows (kws : List String) (store_name url : String) (doc : List Node) : List Row :=
  let ms := match_cards_by_keywords (find_product_cards doc) kws
  if ms.isEmpty then
    rows_from_fallback_blocks store_name url kws (extract_blocks_for_fallback doc)
  else rows_from_matches store_name url ms

/-- The synthetic error record built in the `except` branch of `main`:
`product="ERROR"`, `promo_text=f"{url} -> {e}"`, `id=sha1(str(e))`. -/
def errorRow (store_name url err : String) : Row :=
  { date := TODAY
    store := store_name
    product := "ERROR"
    price := ""
    unit := ""
    promo_text := url ++ " -> " ++ err
    valid_from := ""
    valid_to := ""
    url := url
    id := sha1 err
    image_url := ""
    product_url := "" }

/-- `concatMap`, spelled out for simple inductive reasoning about the
accumulating loops of `main` and the card loop of the keyword
matcher. -/
def concatMapL (f : α → List β) : List α → List β
  | [] => []
  | a :: r => f a ++ concatMapL f r

/-- One iteration of the URL loop of `main`.  `env` models
`BeautifulSoup(fetch(url), "lxml")`: either the parsed document or the
text of the exception raised while fetching/parsing (the only
operations in the `try` block that can raise). -/
def urlRows (env : String → Except String (List Node)) (kws : List String)
    (store_name url : String) : List Row :=
  match env url with
  | .ok doc => pageRows kws store_name url doc
  | .error e => [errorRow store_name url e]

/-- The rows accumulated for one store (`grouped[name]` at the end of
`main`): the URL loop, each URL's rows appended in order. -/
def runStore (env : String → Except String (List Node)) (kws : List String)
    (store_name : String) (urls : List String) : List Row :=
  concatMapL (urlRows env kws store_name) urls

/-- `all_rows` at the end of `main`: the store loop over
`(name, urls)` pairs. -/
def runAll (env : String → Except String (List Node)) (kws : List String)
    (stores : List (String × List String)) : List Row :=
  concatMapL (fun s => runStore env kws s.1 s.2) stores

/-! ### Concrete fixtures used by the claim instances below -/

/-- The scenario-A document: one schema.org-marked product card titled
"Organic Eggs" with price text "$4.99". -/
def eggsDoc : List Node :=
  [.elem "div" [("itemscope", ""), ("itemtype", "https://schema.org/Product")]
    [.elem "span" [("itemprop", "name")] [.text "Organic Eggs"],
     .elem "span" [("itemprop", "price")] [.text "$4.99"]]]

/-- A product card carrying an absolute product link, so that pages with
different URLs build records with identical
`(store, product, price, url)` identifying tuples. -/
def crossPageDoc : List Node :=
  [.elem "div" [("itemscope", ""), ("itemtype", "https://schema.org/Product")]
    [.elem "span" [("itemprop", "name")] [.text "Organic Eggs"],
     .elem "span" [("itemprop", "price")] [.text "$4.99"],
     .elem "a" [("href", "http://shop/eggs")] [.text "view"]]]

/-- An environment serving `crossPageDoc` for every URL. -/
def crossPageEnv : String → Except String (List Node) := fun _ => .ok crossPageDoc

/-- A page whose single product card matches no keyword while a plain
paragraph elsewhere on the page does. -/
def breadSodaDoc : List Node :=
  [.elem "div" [("itemscope", ""), ("itemtype", "https://schema.org/Product")]
    [.elem "span" [("itemprop", "name")] [.text "Bread"]],
   .elem "p" [] [.text "soda $3.99"]]

/-- A one-paragraph document used to instantiate the fallback-block
characterization. -/
def sodaParagraphDoc : List Node := [.elem "p" [] [.text "soda $3.99"]]

/-- An environment that fails for one URL and returns an empty document
elsewhere. -/
def oneBadEnv : String → Except String (List Node) := fun url =>
  if url = "http://bad" then .error "timeout contacting host" else .ok []

/-! ### Helper lemmas and claim theorems -/

theorem pairEq {α β : Type} {a c : α} {b d : β} (h : (a, b) = (c, d)) : a = c ∧ b = d := by
  cases h; exact ⟨rfl, rfl⟩

theorem strCIAt_spec (pat : List Char) :
    ∀ l m r, strCIAt pat l = some (m, r) → l = m ++ r ∧ m.length = pat.length := by
  induction pat with
  | nil =>
    intro l m r h
    simp [strCIAt] at h
    simp [h.1, h.2]
  | cons p ps ih =>
    intro l m r h
    cases l with
    | nil => simp [strCIAt] at h
    | cons c cs =>
      simp only [strCIAt] at h
      split at h
      · cases hrec : strCIAt ps cs with
        | none => rw [hrec] at h; simp at h
        | some x =>
          obtain ⟨m2, r2⟩ := x
          rw [hrec] at h
          simp at h
          obtain ⟨hm, hr⟩ := h
          obtain ⟨he, hl⟩ := ih cs m2 r2 hrec
          subst hm hr he
          simp [hl]
      · simp at h

theorem optWSAt_spec (l w r : List Char) (h : optWSAt l = (w, r)) : l = w ++ r := by
  cases l with
  | nil =>
    obtain ⟨h1, h2⟩ := pairEq h
    rw [← h1, ← h2]; rfl
  | cons c cs =>
    simp only [optWSAt] at h
    split at h <;>
      (obtain ⟨h1, h2⟩ := pairEq h; rw [← h1, ← h2]) <;> rfl

theorem pre_append_drop (m t : List Char) (h : m <+: t) : m ++ t.drop m.length = t := by
  obtain ⟨u, rfl⟩ := h
  rw [List.drop_left]

theorem takeWhileTake_pre (p : Char → Bool) (n : Nat) (t : List Char) :
    (t.takeWhile p).take n <+: t :=
  ( List.take_prefix n (t.takeWhile p)).trans ( List.takeWhile_prefix p)

theorem optFracAt_spec (l f r : List Char) (h : optFracAt l = (f, r)) : l = f ++ r := by
  cases l with
  | nil =>
    obtain ⟨h1, h2⟩ := pairEq h
    rw [← h1, ← h2]; rfl
  | cons c cs =>
    simp only [optFracAt] at h
    split at h
    · split at h
      · obtain ⟨h1, h2⟩ := pairEq h
        rw [← h1, ← h2]; rfl
      · obtain ⟨h1, h2⟩ := pairEq h
        rw [← h1, ← h2]
        simp only [List.cons_append, List.cons.injEq, true_and]
        exact (pre_append_drop _ _ (takeWhileTake_pre Char.isDigit 2 cs)).symm
    · obtain ⟨h1, h2⟩ := pairEq h
      rw [← h1, ← h2]; rfl

theorem unitSlashAt_spec (l m r : List Char) (h : unitSlashAt l = some (m, r)) :
    l = m ++ r ∧ m ≠ [] := by
  cases l with
  | nil => simp [unitSlashAt] at h
  | cons c cs =>
    simp only [unitSlashAt] at h
    split at h
    · have key : ∀ pat m2 r2, strCIAt pat cs = some (m2, r2) →
          (some ((c :: m2 : List Char), r2) : Option (List Char × List Char)) = some (m, r) →
          c :: cs = m ++ r ∧ m ≠ [] := by
        intro pat m2 r2 hs he
        simp only [Option.some.injEq] at he
        obtain ⟨hm, hr⟩ := pairEq he
        rw [← hm, ← hr]
        have := (strCIAt_spec pat cs m2 r2 hs).1
        simp [this]
      cases h1 : strCIAt ['l', 'b'] cs with
      | some x =>
        obtain ⟨m2, r2⟩ := x
        rw [h1] at h
        exact key _ m2 r2 h1 h
      | none =>
        rw [h1] at h
        cases h2 : strCIAt ['k', 'g'] cs with
        | some x =>
          obtain ⟨m2, r2⟩ := x
          rw [h2] at h
          exact key _ m2 r2 h2 h
        | none =>
          rw [h2] at h
          cases h3 : strCIAt ['e', 'a'] cs with
          | some x =>
            obtain ⟨m2, r2⟩ := x
            rw [h3] at h
            exact key _ m2 r2 h3 h
          | none => rw [h3] at h; simp at h
    · simp at h

theorem multiBuyAt_spec (l m r : List Char) (h : multiBuyAt l = some (m, r)) :
    l = m ++ r ∧ m ≠ [] := by
  simp only [multiBuyAt] at h
  split at h
  · simp at h
  · rename_i hds
    rcases hw1 : optWSAt (l.dropWhile Char.isDigit) with ⟨w1, r2⟩
    rw [hw1] at h
    cases hfor : strCIAt ['f', 'o', 'r'] r2 with
    | none => rw [hfor] at h; simp at h
    | some x =>
      obtain ⟨mfor, r3⟩ := x
      rw [hfor] at h
      dsimp only at h
      rcases hw2 : optWSAt r3 with ⟨w2, r4⟩
      rw [hw2] at h
      dsimp only at h
      cases r4 with
      | nil => simp at h
      | cons c4 r5 =>
        dsimp only at h
        split at h
        · rcases hw3 : optWSAt r5 with ⟨w3, r6⟩
          rw [hw3] at h
          dsimp only at h
          split at h
          · simp at h
          · rename_i hds2
            rcases hfr : optFracAt (r6.dropWhile Char.isDigit) with ⟨frac, r8⟩
            rw [hfr] at h
            dsimp only at h
            simp only [Option.some.injEq] at h
            obtain ⟨hm, hr⟩ := pairEq h
            rw [← hm, ← hr]
            constructor
            · have e1 : l.takeWhile Char.isDigit ++ l.dropWhile Char.isDigit = l :=
                List.takeWhile_append_dropWhile Char.isDigit l
              have e2 := optWSAt_spec _ _ _ hw1
              have e3 := (strCIAt_spec _ _ _ _ hfor).1
              have e4 := optWSAt_spec _ _ _ hw2
              have e5 := optWSAt_spec _ _ _ hw3
              have e6 : r6.takeWhile Char.isDigit ++ r6.dropWhile Char.isDigit = r6 :=
                List.takeWhile_append_dropWhile Char.isDigit r6
              have e7 := optFracAt_spec _ _ _ hfr
              conv_lhs => rw [← e1, e2, e3, e4, e5, ← e6, e7]
              simp [List.append_assoc]
            · intro hc
              simp at hc
        · simp at h

theorem unitMatchAt_spec (l m r : List Char) (h : unitMatchAt l = some (m, r)) :
    l = m ++ r ∧ m ≠ [] := by
  simp only [unitMatchAt] at h
  cases h1 : unitSlashAt l with
  | some x => rw [h1] at h; cases h; exact unitSlashAt_spec l _ _ h1
  | none =>
    rw [h1] at h
    cases h2 : multiBuyAt l with
    | some x => rw [h2] at h; cases h; exact multiBuyAt_spec l _ _ h2
    | none =>
      rw [h2] at h
      have hs := strCIAt_spec ['e', 'a', 'c', 'h'] l m r h
      refine ⟨hs.1, ?_⟩
      intro hc
      rw [hc] at hs
      simp at hs

theorem scanFirstM_none (f : List Char → Option (List Char × List Char)) :
    ∀ l, scanFirstM f l = none → ∀ i, f (l.drop i) = none := by
  intro l
  induction l with
  | nil =>
    intro h i
    simp only [scanFirstM, Option.map_eq_none'] at h
    simpa using h
  | cons c r ih =>
    intro h i
    cases hf : f (c :: r) with
    | some x => simp only [scanFirstM, hf] at h; simp at h
    | none =>
      simp only [scanFirstM, hf] at h
      cases i with
      | zero => simpa using hf
      | succ k => rw [List.drop_succ_cons]; exact ih h k

theorem scanFirstM_some (f : List Char → Option (List Char × List Char)) :
    ∀ l m, scanFirstM f l = some m →
      ∃ i r, f (l.drop i) = some (m, r) ∧ ∀ j, j < i → f (l.drop j) = none := by
  intro l
  induction l with
  | nil =>
    intro m h
    simp only [scanFirstM] at h
    cases hf : f [] with
    | none => rw [hf] at h; simp at h
    | some x =>
      obtain ⟨m2, r2⟩ := x
      rw [hf] at h
      simp at h
      subst h
      exact ⟨0, r2, hf, by omega⟩
  | cons c r ih =>
    intro m h
    cases hf : f (c :: r) with
    | some x =>
      obtain ⟨m2, r2⟩ := x
      simp only [scanFirstM, hf] at h
      cases h
      exact ⟨0, r2, hf, by omega⟩
    | none =>
      simp only [scanFirstM, hf] at h
      obtain ⟨i, r2, hfi, hj⟩ := ih m h
      refine ⟨i + 1, r2, by simpa using hfi, ?_⟩
      intro j hjlt
      cases j with
      | zero => simpa using hf
      | succ k => rw [List.drop_succ_cons]; exact hj k (by omega)

theorem mkString_eq_empty (m : List Char) (h : String.mk m = "") : m = [] := by
  have := congrArg String.data h
  simpa using this

/-- Claim C5 (amended): the unit component of `guess_price_unit` is the
matched substring, verbatim, of the leftmost occurrence of the unit
pattern `(/(?:lb|kg|ea))|(\d+\s?for\s?\$\s?\d+(?:\.\d{1,2})?)|(each)`
(case-insensitive) — with no `buy N get N` alternative — and the empty
string when the pattern occurs nowhere. -/
theorem guess_unit_leftmost (s : String) :
    ((guess_price_unit s).2 = "" → ∀ i, unitMatchAt (s.data.drop i) = none) ∧
    ((guess_price_unit s).2 ≠ "" →
      ∃ i r, unitMatchAt (s.data.drop i) = some ((guess_price_unit s).2.data, r) ∧
        s.data.drop i = (guess_price_unit s).2.data ++ r ∧
        ∀ j, j < i → unitMatchAt (s.data.drop j) = none) := by
  cases hu : scanFirstM unitMatchAt s.data with
  | none =>
    have he : (guess_price_unit s).2 = "" := by simp [guess_price_unit, hu]
    constructor
    · intro _ i
      exact scanFirstM_none unitMatchAt s.data hu i
    · intro hne
      exact absurd he hne
  | some m =>
    have he : (guess_price_unit s).2 = String.mk m := by simp [guess_price_unit, hu]
    obtain ⟨i, r, hfi, hj⟩ := scanFirstM_some unitMatchAt s.data m hu
    obtain ⟨happ, hne⟩ := unitMatchAt_spec _ _ _ hfi
    constructor
    · intro h0
      rw [he] at h0
      exact absurd (mkString_eq_empty m h0) hne
    · intro _
      exact ⟨i, r, by rw [he]; exact hfi, by rw [he]; exact happ, hj⟩

theorem guess_unit_leftmost_witness :
    (guess_price_unit "2 for $5").2 ≠ "" ∧
    ∃ i r, unitMatchAt (("2 for $5" : String).data.drop i)
        = some ((guess_price_unit "2 for $5").2.data, r) ∧
      ("2 for $5" : String).data.drop i = (guess_price_unit "2 for $5").2.data ++ r ∧
      ∀ j, j < i → unitMatchAt (("2 for $5" : String).data.drop j) = none :=
  ⟨by decide, (guess_unit_leftmost "2 for $5").2 (by decide)⟩

/-- Claim C5 counterexample: `"buy 1 get 1"` matches the claimed
`buy N get N` unit alternative in full, yet `guess_price_unit` returns
an empty unit — the unit regex of the source has no such alternative. -/
theorem unit_has_no_buyget_counterexample :
    buyGetAt ("buy 1 get 1" : String).data = some ("buy 1 get 1" : String).data ∧
    (guess_price_unit "buy 1 get 1").2 = "" := by
  constructor <;> decide

theorem dedupGo_sublist (rows : List Row) : ∀ seen, List.Sublist (dedupGo seen rows) rows := by
  induction rows with
  | nil => intro seen; simp [dedupGo]
  | cons r rest ih =>
    intro seen
    simp only [dedupGo]
    split
    · exact (ih seen).cons r
    · exact (ih (r.id :: seen)).cons₂ r

theorem dedupGo_id_not_seen (rows : List Row) :
    ∀ seen q, q ∈ dedupGo seen rows → q.id ∉ seen := by
  induction rows with
  | nil => intro seen q hq; simp [dedupGo] at hq
  | cons r rest ih =>
    intro seen q hq
    simp only [dedupGo] at hq
    split at hq
    · exact ih seen q hq
    · rename_i hr
      rcases List.mem_cons.mp hq with rfl | hq2
      · exact hr
      · intro hin
        exact ih _ q hq2 (List.mem_cons_of_mem _ hin)

theorem dedupGo_nodup (rows : List Row) :
    ∀ seen, ((dedupGo seen rows).map Row.id).Nodup := by
  induction rows with
  | nil => intro seen; simp [dedupGo]
  | cons r rest ih =>
    intro seen
    simp only [dedupGo]
    split
    · exact ih seen
    · simp only [List.map_cons, List.nodup_cons]
      refine ⟨?_, ih (r.id :: seen)⟩
      intro hmem
      obtain ⟨q, hq, hqid⟩ := List.mem_map.mp hmem
      exact dedupGo_id_not_seen rest _ q hq (by simp [hqid])

theorem dedupGo_covers (rows : List Row) :
    ∀ seen r, r ∈ rows → r.id ∉ seen → ∃ q ∈ dedupGo seen rows, q.id = r.id := by
  induction rows with
  | nil => intro seen r hr; simp at hr
  | cons a rest ih =>
    intro seen r hr hns
    simp only [dedupGo]
    split
    · rename_i ha
      rcases List.mem_cons.mp hr with heq | hr2
      · exact absurd (heq ▸ ha) hns
      · exact ih seen r hr2 hns
    · rename_i ha
      rcases List.mem_cons.mp hr with heq | hr2
      · exact ⟨a, List.mem_cons_self a _, by rw [heq]⟩
      · by_cases hid : r.id = a.id
        · exact ⟨a, List.mem_cons_self a _, hid.symm⟩
        · obtain ⟨q, hq, hqid⟩ := ih (a.id :: seen) r hr2 (by simp [hns, hid])
          exact ⟨q, List.mem_cons_of_mem _ hq, hqid⟩

theorem dedupGo_first (rows : List Row) :
    ∀ seen q, q ∈ dedupGo seen rows →
      ∃ pre suf, rows = pre ++ q :: suf ∧ ∀ p ∈ pre, p.id ≠ q.id := by
  induction rows with
  | nil => intro seen q hq; simp [dedupGo] at hq
  | cons r rest ih =>
    intro seen q hq
    have hqs := dedupGo_id_not_seen (r :: rest) seen q hq
    simp only [dedupGo] at hq
    split at hq
    · rename_i hr
      obtain ⟨pre, suf, heq, hne⟩ := ih seen q hq
      refine ⟨r :: pre, suf, by rw [heq]; simp, ?_⟩
      intro p hp
      rcases List.mem_cons.mp hp with heq2 | hp2
      · intro hpq
        exact hqs ((heq2 ▸ hpq) ▸ hr)
      · exact hne p hp2
    · rename_i hr
      rcases List.mem_cons.mp hq with rfl | hq2
      · exact ⟨[], rest, rfl, by simp⟩
      · obtain ⟨pre, suf, heq, hne⟩ := ih (r.id :: seen) q hq2
        have hqr : q.id ≠ r.id := by
          have := dedupGo_id_not_seen rest (r.id :: seen) q hq2
          simp at this
          exact this.1
        refine ⟨r :: pre, suf, by rw [heq]; simp, ?_⟩
        intro p hp
        rcases List.mem_cons.mp hp with heq2 | hp2
        · exact fun hpq => hqr ((heq2 ▸ hpq).symm)
        · exact hne p hp2

theorem dedupGo_keepall_append (l ms : List Row) :
    ∀ seen, ((l.map Row.id).Nodup) → (∀ r ∈ l, r.id ∉ seen) →
      dedupGo seen (l ++ ms) = l ++ dedupGo (l.reverse.map Row.id ++ seen) ms := by
  induction l with
  | nil => intro seen _ _; simp
  | cons r l ih =>
    intro seen hnd hns
    have hrs : r.id ∉ seen := hns r (List.mem_cons_self r l)
    simp only [List.cons_append, dedupGo, if_neg hrs, List.append_eq]
    rw [ih (r.id :: seen) (by simp at hnd; exact hnd.2) ?side]
    · simp [List.append_assoc]
    case side =>
      intro x hx
      simp only [List.mem_cons, not_or]
      constructor
      · intro hxr
        simp at hnd
        exact hnd.1 x hx hxr
      · exact hns x (List.mem_cons_of_mem r hx)

theorem dedupGo_dropall (ms : List Row) :
    ∀ seen, (∀ r ∈ ms, r.id ∈ seen) → dedupGo seen ms = [] := by
  induction ms with
  | nil => intro seen _; rfl
  | cons r rest ih =>
    intro seen hall
    simp only [dedupGo, if_pos (hall r (List.mem_cons_self r rest))]
    exact ih seen fun x hx => hall x (List.mem_cons_of_mem r hx)

/-- Claim C1 (amended): within one `rows_from_matches` call (one page build),
`id` is unique in the output, every built record's `id` is represented,
each survivor is the first-built record with its `id`, and survivors
appear in discovery order; across pages of the same store `main` merely
concatenates page outputs with no further deduplication (see the
counterexample). -/
theorem rows_from_matches_dedup (store base : String) (ms : List DealMatch) :
    ((rows_from_matches store base ms).map Row.id).Nodup ∧
    List.Sublist (rows_from_matches store base ms) (ms.map (buildRow store base)) ∧
    (∀ r ∈ ms.map (buildRow store base),
      ∃ q ∈ rows_from_matches store base ms, q.id = r.id) ∧
    (∀ q ∈ rows_from_matches store base ms,
      ∃ pre suf, ms.map (buildRow store base) = pre ++ q :: suf ∧
        ∀ p ∈ pre, p.id ≠ q.id) := by
  refine ⟨dedupGo_nodup _ [], dedupGo_sublist _ [], ?_, ?_⟩
  · intro r hr
    exact dedupGo_covers _ [] r hr (by simp)
  · intro q hq
    exact dedupGo_first _ [] q hq

theorem rows_from_matches_dedup_witness :
    ∃ q ∈ rows_from_matches "S" "http://b" [⟨⟨"", "", "", "", "promo"⟩, "kw"⟩],
      q.id = (buildRow "S" "http://b" ⟨⟨"", "", "", "", "promo"⟩, "kw"⟩).id := by
  have h :=
    (rows_from_matches_dedup "S" "http://b" [⟨⟨"", "", "", "", "promo"⟩, "kw"⟩]).2.2.1
      (buildRow "S" "http://b" ⟨⟨"", "", "", "", "promo"⟩, "kw"⟩) (by decide)
  exact h

/-- Claim C1 counterexample: two pages of the same store yield records with
identical identifying tuples, and the merged per-store output keeps
both — `id` is not unique across the records of a store within one
run. -/
theorem store_ids_not_unique_counterexample :
    (runStore crossPageEnv ["egg"] "StoreA" ["http://p1", "http://p2"]).length = 2 ∧
    ¬ ((runStore crossPageEnv ["egg"] "StoreA" ["http://p1", "http://p2"]).map Row.id).Nodup := by
  constructor <;> decide

/-- Claim C7: the record builder is deterministic — two runs on the same match
list, store and base URL give identical `id` sequences — and
deduplication is idempotent: the concatenation of the two outputs,
deduplicated by `id` keeping first occurrences, has exactly as many
records as one output alone. -/
theorem rows_from_matches_idempotent (store base : String) (ms : List DealMatch) :
    (rows_from_matches store base ms).map Row.id
        = (rows_from_matches store base ms).map Row.id ∧
    (dedupById (rows_from_matches store base ms ++ rows_from_matches store base ms)).length
        = (rows_from_matches store base ms).length := by
  refine ⟨rfl, ?_⟩
  have hnd : ((rows_from_matches store base ms).map Row.id).Nodup := dedupGo_nodup _ []
  have hkeep := dedupGo_keepall_append (rows_from_matches store base ms)
    (rows_from_matches store base ms) [] hnd (by simp)
  have hdrop : dedupGo ((rows_from_matches store base ms).reverse.map Row.id ++ [])
      (rows_from_matches store base ms) = [] := by
    refine dedupGo_dropall _ _ ?_
    intro r hr
    simp only [List.append_nil, List.map_reverse, List.mem_reverse]
    exact List.mem_map.mpr ⟨r, hr, rfl⟩
  unfold dedupById
  rw [hkeep, hdrop]
  simp

theorem firstHit_mem_spec (b : String) :
    ∀ kws kw, firstHit kws b = some kw →
      re_search_ci kw b = true ∧
      ∃ i : Fin kws.length, kws.get i = kw ∧
        ∀ j : Fin kws.length, j.val < i.val → re_search_ci (kws.get j) b = false := by
  intro kws
  induction kws with
  | nil => intro kw h; simp [firstHit] at h
  | cons k rest ih =>
    intro kw h
    simp only [firstHit] at h
    split at h
    · rename_i hk
      cases h
      refine ⟨hk, ⟨0, by simp⟩, rfl, ?_⟩
      intro j hj
      simp at hj
    · rename_i hk
      obtain ⟨hre, i, hget, hj⟩ := ih kw h
      refine ⟨hre, ⟨i.val + 1, by have h2 := i.isLt; simp⟩, ?_, ?_⟩
      · simpa using hget
      · intro j hjlt
        rcases j with ⟨jv, hjv⟩
        cases jv with
        | zero => simpa using eq_false_of_ne_true (by simpa using hk)
        | succ jj =>
          have : jj < i.val := by simpa using hjlt
          simpa using hj ⟨jj, by simp at hjv; omega⟩ this

theorem firstHit_eq_none (b : String) :
    ∀ kws, (∀ kw ∈ kws, re_search_ci kw b = false) → firstHit kws b = none := by
  intro kws
  induction kws with
  | nil => intro _; rfl
  | cons k rest ih =>
    intro hall
    simp only [firstHit]
    rw [if_neg]
    · exact ih fun kw hkw => hall kw (List.mem_cons_of_mem k hkw)
    · simp [hall k (List.mem_cons_self k rest)]

/-- Claim C8: the keyword matcher processes cards independently in order; per
card it emits at most one Match, whose keyword is the first (in
caller-supplied order) whose case-insensitive search succeeds on the
blob `title ++ " " ++ price ++ " " ++ raw`, every earlier keyword
failing; a card matching no keyword contributes nothing. -/
theorem keyword_matcher_spec (cards : List Card) (kws : List String) :
    match_cards_by_keywords cards kws
        = concatMapL (fun c => match_cards_by_keywords [c] kws) cards ∧
    ∀ c : Card,
      (match_cards_by_keywords [c] kws).length ≤ 1 ∧
      (∀ m ∈ match_cards_by_keywords [c] kws,
        m.card = c ∧ re_search_ci m.hit (searchBlob c) = true ∧
        ∃ i : Fin kws.length, kws.get i = m.hit ∧
          ∀ j : Fin kws.length, j.val < i.val →
            re_search_ci (kws.get j) (searchBlob c) = false) ∧
      ((∀ kw ∈ kws, re_search_ci kw (searchBlob c) = false) →
        match_cards_by_keywords [c] kws = []) := by
  constructor
  · induction cards with
    | nil => rfl
    | cons c rest ih =>
      simp only [match_cards_by_keywords, concatMapL]
      cases h : firstHit kws (searchBlob c) <;> simp [match_cards_by_keywords, h, ih]
  · intro c
    refine ⟨?_, ?_, ?_⟩
    · cases h : firstHit kws (searchBlob c) <;>
        simp [match_cards_by_keywords, h]
    · intro m hm
      cases h : firstHit kws (searchBlob c) with
      | none => simp [match_cards_by_keywords, h] at hm
      | some kw =>
        simp [match_cards_by_keywords, h] at hm
        subst hm
        obtain ⟨hre, i, hget, hj⟩ := firstHit_mem_spec (searchBlob c) kws kw h
        exact ⟨rfl, hre, i, hget, hj⟩
    · intro hall
      rw [show match_cards_by_keywords [c] kws
            = (match firstHit kws (searchBlob c) with
               | some kw => [(⟨c, kw⟩ : DealMatch)]
               | none => []) from by
          cases h : firstHit kws (searchBlob c) <;> simp [match_cards_by_keywords, h]]
      rw [firstHit_eq_none (searchBlob c) kws hall]

theorem keyword_matcher_spec_witness :
    match_cards_by_keywords [⟨"Bread", "", "", "", "Bread"⟩] ["zzz"] = [] := by
  refine (keyword_matcher_spec [⟨"Bread", "", "", "", "Bread"⟩] ["zzz"]).2
    ⟨"Bread", "", "", "", "Bread"⟩ |>.2.2 ?_
  intro kw hkw
  simp only [List.mem_singleton] at hkw
  subst hkw
  decide

theorem keepBlocks_sound (lines : List String) :
    ∀ b ∈ keepBlocks lines,
      ∃ l ∈ lines, strip l ≠ "" ∧
        (100 ≤ (strip l).length ∨ pricePromoFound (strip l) = true) ∧
        b = textnorm (strip l) := by
  induction lines with
  | nil => intro b hb; simp [keepBlocks] at hb
  | cons line rest ih =>
    intro b hb
    simp only [keepBlocks] at hb
    split at hb
    · obtain ⟨l, hl, h⟩ := ih b hb
      exact ⟨l, List.mem_cons_of_mem line hl, h⟩
    · rename_i hne
      split at hb
      · obtain ⟨l, hl, h⟩ := ih b hb
        exact ⟨l, List.mem_cons_of_mem line hl, h⟩
      · rename_i hkeep
        rcases List.mem_cons.mp hb with heq | hb2
        · refine ⟨line, List.mem_cons_self line rest, hne, ?_, heq⟩
          rcases Bool.and_eq_true .. ▸ hkeep with h
          by_cases hlen : (strip line).length < 100
          · right
            by_cases hpp : pricePromoFound (strip line) = true
            · exact hpp
            · exact absurd (by simp [decide_eq_true_eq, hlen, hpp]) hkeep
          · left; omega
        · obtain ⟨l, hl, h⟩ := ih b hb2
          exact ⟨l, List.mem_cons_of_mem line hl, h⟩

theorem keepBlocks_complete (lines : List String) :
    ∀ l ∈ lines, strip l ≠ "" →
      (100 ≤ (strip l).length ∨ pricePromoFound (strip l) = true) →
      textnorm (strip l) ∈ keepBlocks lines := by
  induction lines with
  | nil => intro l hl; simp at hl
  | cons line rest ih =>
    intro l hl hne hkeep
    simp only [keepBlocks]
    rcases List.mem_cons.mp hl with heq | hl2
    · rw [if_neg (heq ▸ hne)]
      rw [if_neg ?keepneg]
      · exact heq ▸ List.mem_cons_self _ _
      case keepneg =>
        rw [← heq]
        simp only [Bool.and_eq_true, Bool.not_eq_true', decide_eq_true_eq, not_and]
        intro hlen
        rcases hkeep with hlong | hpp
        · omega
        · simp [hpp]
    · have hrec := ih l hl2 hne hkeep
      split
      · exact hrec
      · split
        · exact hrec
        · exact List.mem_cons_of_mem _ hrec

/-- Claim C9: the fallback block extractor retains exactly the non-empty
flattened lines that are at least 100 characters long or match the
price/promo pattern (a dollar amount, an `N for $M` pattern, or a
`buy N get N` pattern), each retained line whitespace-normalized. -/
theorem fallback_blocks_spec (doc : List Node) :
    (∀ b ∈ extract_blocks_for_fallback doc,
      ∃ l ∈ fallbackLines doc, strip l ≠ "" ∧
        (100 ≤ (strip l).length ∨ pricePromoFound (strip l) = true) ∧
        b = textnorm (strip l)) ∧
    (∀ l ∈ fallbackLines doc, strip l ≠ "" →
      (100 ≤ (strip l).length ∨ pricePromoFound (strip l) = true) →
      textnorm (strip l) ∈ extract_blocks_for_fallback doc) :=
  ⟨keepBlocks_sound (fallbackLines doc), keepBlocks_complete (fallbackLines doc)⟩

theorem fallback_blocks_spec_witness :
    textnorm (strip "soda $3.99") ∈ extract_blocks_for_fallback sodaParagraphDoc :=
  (fallback_blocks_spec sodaParagraphDoc).2 "soda $3.99" (by decide) (by decide)
    (Or.inr (by decide))

theorem concatMapL_append (f : α → List β) (l1 l2 : List α) :
    concatMapL f (l1 ++ l2) = concatMapL f l1 ++ concatMapL f l2 := by
  induction l1 with
  | nil => simp [concatMapL]
  | cons a r ih => simp [concatMapL, ih]

/-- Claim C6: a fetch/parse failure for one URL yields exactly one synthetic
record for that URL — `product = "ERROR"`, `promo_text` containing the
URL and the error description, `id` the hash of the error description —
inserted in place, while every other URL of that store and every other
store is still processed. -/
theorem error_record_isolated (env : String → Except String (List Node))
    (kws : List String) (S1 S2 : List (String × List String))
    (name u e : String) (us1 us2 : List String)
    (h : env u = .error e) :
    runAll env kws (S1 ++ (name, us1 ++ u :: us2) :: S2)
        = runAll env kws S1 ++
          (runStore env kws name us1 ++ errorRow name u e ::
            (runStore env kws name us2 ++ runAll env kws S2)) ∧
    (errorRow name u e).product = "ERROR" ∧
    (errorRow name u e).id = sha1 e ∧
    (∃ a b, (errorRow name u e).promo_text.data = a ++ u.data ++ b) ∧
    (∃ a b, (errorRow name u e).promo_text.data = a ++ e.data ++ b) := by
  refine ⟨?_, rfl, rfl, ?_, ?_⟩
  · have hmid : runStore env kws name (us1 ++ u :: us2)
        = runStore env kws name us1 ++ errorRow name u e :: runStore env kws name us2 := by
      unfold runStore
      rw [concatMapL_append]
      simp only [concatMapL, urlRows, h]
      rfl
    unfold runAll
    rw [concatMapL_append]
    simp only [concatMapL]
    rw [show runStore env kws (name, us1 ++ u :: us2).1 (name, us1 ++ u :: us2).2
          = runStore env kws name (us1 ++ u :: us2) from rfl, hmid]
    simp [List.append_assoc, runAll]
  · refine ⟨[], (" -> " ++ e).data, ?_⟩
    show (u ++ " -> " ++ e).data = [] ++ u.data ++ (" -> " ++ e).data
    simp
  · refine ⟨(u ++ " -> ").data, [], ?_⟩
    show (u ++ " -> " ++ e).data = (u ++ " -> ").data ++ e.data ++ []
    simp

theorem error_record_isolated_witness :
    runAll oneBadEnv ["egg"] [("S", ["http://ok1", "http://bad", "http://ok2"]), ("T", ["http://ok3"])]
        = runAll oneBadEnv ["egg"] [] ++
          (runStore oneBadEnv ["egg"] "S" ["http://ok1"] ++
            errorRow "S" "http://bad" "timeout contacting host" ::
              (runStore oneBadEnv ["egg"] "S" ["http://ok2"] ++
                runAll oneBadEnv ["egg"] [("T", ["http://ok3"])])) ∧
    (errorRow "S" "http://bad" "timeout contacting host").product = "ERROR" ∧
    (errorRow "S" "http://bad" "timeout contacting host").id = sha1 "timeout contacting host" ∧
    (∃ a b, (errorRow "S" "http://bad" "timeout contacting host").promo_text.data
        = a ++ ("http://bad" : String).data ++ b) ∧
    (∃ a b, (errorRow "S" "http://bad" "timeout contacting host").promo_text.data
        = a ++ ("timeout contacting host" : String).data ++ b) :=
  error_record_isolated oneBadEnv ["egg"] [] [("T", ["http://ok3"])] "S" "http://bad"
    "timeout contacting host" ["http://ok1"] ["http://ok2"] rfl

/-- Claim C2 (amended): the fallback block extractor runs for a page exactly
when the keyword matcher produced zero matches for the page's cards.
Zero cards imply zero matches, so a page with no cards still falls
through to the fallback; but a page whose cards match no keyword also
does, so producing at least one candidate card does not prevent the
fallback path. -/
theorem fallback_iff_no_matches (kws : List String) (name url : String) (doc : List Node) :
    (match_cards_by_keywords (find_product_cards doc) kws = [] →
      pageRows kws name url doc
        = rows_from_fallback_blocks name url kws (extract_blocks_for_fallback doc)) ∧
    (match_cards_by_keywords (find_product_cards doc) kws ≠ [] →
      pageRows kws name url doc
        = rows_from_matches name url (match_cards_by_keywords (find_product_cards doc) kws)) ∧
    (find_product_cards doc = [] →
      match_cards_by_keywords (find_product_cards doc) kws = []) := by
  refine ⟨?_, ?_, ?_⟩
  · intro h
    simp [pageRows, h]
  · intro h
    simp [pageRows, List.isEmpty_iff, h]
  · intro h
    rw [h]
    rfl

theorem fallback_iff_no_matches_witness :
    pageRows ["zzz"] "S" "http://b" []
      = rows_from_fallback_blocks "S" "http://b" ["zzz"] (extract_blocks_for_fallback []) :=
  (fallback_iff_no_matches ["zzz"] "S" "http://b" []).1 (by decide)

/-- Claim C2 counterexample: the card extractor produces a candidate card for
`breadSodaDoc`, yet the fallback block path still runs for the page
(and produces a record), because line 259 of the source branches on
`matches`, not on `cards`. -/
theorem fallback_runs_with_cards_counterexample :
    find_product_cards breadSodaDoc ≠ [] ∧
    match_cards_by_keywords (find_product_cards breadSodaDoc) ["soda"] = [] ∧
    pageRows ["soda"] "S" "http://b" breadSodaDoc
      = rows_from_fallback_blocks "S" "http://b" ["soda"]
          (extract_blocks_for_fallback breadSodaDoc) ∧
    (pageRows ["soda"] "S" "http://b" breadSodaDoc).map Row.product = ["soda"] := by
  refine ⟨by decide, by decide, by decide, by decide⟩

theorem takeStr_eq_empty_iff (s : String) : takeStr s 120 = "" ↔ s = "" := by
  constructor
  · intro h
    have hd := congrArg String.data h
    simp only [takeStr] at hd
    have : s.data.take 120 = [] := hd
    rcases List.take_eq_nil_iff.mp this with h120 | hnil
    · exact absurd h120 (by omega)
    · cases s with
      | mk data => simp at hnil; simp [hnil]
  · intro h
    rw [h]
    rfl

/-- Claim C3 counterexample: a card-path match whose card title is empty but
whose raw text is non-empty gets `product` from the raw text (first 120
characters), not from the matched keyword. -/
theorem product_not_keyword_counterexample :
    (rows_from_matches "S" "http://b" [⟨⟨"", "", "", "", "Fresh promo"⟩, "egg"⟩]).map Row.product
      = ["Fresh promo"] ∧ ("Fresh promo" : String) ≠ "egg" := by
  refine ⟨by decide, by decide⟩

/-- Claim C3 (amended): on the card path, `product` equals the card title when
the title is non-empty; when the title is empty it equals the first 120
characters of the raw text; the matched keyword is used only when the
title and the raw text are both empty. -/
theorem product_field_spec (store base : String) (m : DealMatch) :
    (buildRow store base m).product =
      if m.card.title ≠ "" then m.card.title
      else if m.card.raw ≠ "" then takeStr m.card.raw 120
      else m.hit := by
  unfold buildRow
  by_cases h1 : m.card.title = ""
  · simp only [h1, ne_eq, not_true_eq_false, if_false, ite_not]
    by_cases h2 : m.card.raw = ""
    · simp [h2, takeStr]
    · have h3 : takeStr m.card.raw 120 ≠ "" := fun hc => h2 ((takeStr_eq_empty_iff _).mp hc)
      simp [h2, h3]
  · simp [h1]

/-- Claim C4 counterexample: for the scenario-A document the single record's
`price` is the card's price text verbatim, `"$4.99"` — the currency
symbol is not stripped on the card path. -/
theorem scenario_a_price_counterexample :
    (pageRows ["egg"] "StoreA" "http://a" eggsDoc).map Row.price = ["$4.99"] ∧
    ("$4.99" : String) ≠ "4.99" := by
  refine ⟨by decide, by decide⟩

/-- Claim C4 (amended): the scenario-A document with keyword list `["egg"]`
produces exactly one Deal Record, with `product = "Organic Eggs"` and
`price = "$4.99"` (the card's price text verbatim; no currency
stripping happens on the card path). -/
theorem scenario_a_spec :
    (pageRows ["egg"] "StoreA" "http://a" eggsDoc).length = 1 ∧
    (pageRows ["egg"] "StoreA" "http://a" eggsDoc).map Row.product = ["Organic Eggs"] ∧
    (pageRows ["egg"] "StoreA" "http://a" eggsDoc).map Row.price = ["$4.99"] := by
  refine ⟨by decide, by decide, by decide⟩

/-- Claim C10: on `"$1234"`, whose dollar amount has four digits before the
(absent) decimal point, `guess_price_unit` returns the strict prefix
`"123"` of the printed digits — neither the full number nor the empty
string — because `\d{1,3}` matches at most three digits with no
boundary check after them. -/
theorem price_truncates_long_digit_runs :
    guess_price_unit "$1234" = ("123", "") ∧
    ("123" : String).data ++ ['4'] = ("1234" : String).data ∧
    ("123" : String) ≠ "1234" ∧ ("123" : String) ≠ "" := by
  refine ⟨by decide, by decide, by decide, by decide⟩
